import Mathlib

/-!
Verification of the slot-selection engine of `scheduling-tracks.js`.

The engine works on an availability index: a JavaScript object mapping a
time-slot label to the ordered list of participant emails available then.
JavaScript objects with string keys enumerate in insertion order, and
`Array.prototype.sort` is stable, so we embed the index as a `List` of
(label, emails) pairs and the ranking step as a stable descending
insertion sort followed by taking the first element.

Sets of emails (`new Set(...)` in the source) are embedded as `Finset`s
over `String`: the source only uses membership, size, add and delete.
-/

namespace SchedulingTracks

abbrev Email := String

/-- One entry of an availability index: a time-slot label together with the
ordered list of participant emails available at that slot. -/
abbrev Slot := String × List Email

/-- The set of all participant emails appearing anywhere in an index:
`new Set(Object.values(slots).flat())` in the source. -/
def studentsOf (slots : List Slot) : Finset Email :=
  ((slots.map Prod.snd).flatten).toFinset

/-- The keys of a JavaScript object are pairwise distinct; an embedded index
arising from an actual object satisfies this predicate. -/
abbrev keysNodup (slots : List Slot) : Prop := (slots.map Prod.fst).Nodup

/-! ### Stable descending sort

`Object.entries(x).sort((a, b) => score(b) - score(a))` is a stable sort in
descending score order; `sorted[0]` is therefore the earliest-inserted entry
attaining the maximal score.  We embed the sort as a stable insertion sort. -/

/-- Insert `x` into a descending-sorted list, after every element of strictly
larger score (stability: `x` goes before later elements of equal score). -/
def insertDesc (score : α → Nat) (x : α) : List α → List α
  | [] => [x]
  | y :: ys => if score x < score y then y :: insertDesc score x ys else x :: y :: ys

/-- Stable sort in descending score order, as performed by the source's
`sort((a, b) => scoreB - scoreA)`. -/
def sortDesc (score : α → Nat) : List α → List α
  | [] => []
  | x :: xs => insertDesc score x (sortDesc score xs)

/-! ### Minimum-cover selector (`getMinimumTimeSlots`) -/

/-- New coverage of a slot: the number of its emails not yet covered
(`a[1].filter(email => !studentsCovered.has(email)).length`). -/
def newCoverage (covered : Finset Email) (s : Slot) : Nat :=
  (s.2.filter (fun e => decide (e ∉ covered))).length

/-- One ranking round of `getMinimumTimeSlots`: sort the entries by new
coverage (descending, stable) and take `sortedSlots[0]`.  `none` models the
`TypeError` thrown by destructuring `sortedSlots[0]` when no entry exists. -/
def minRoundPick (covered : Finset Email) (slots : List Slot) : Option Slot :=
  (sortDesc (newCoverage covered) slots).head?

/-- The greedy loop of `getMinimumTimeSlots`.  Each selecting round deletes
the winning key from the working index, so the index length is an exact fuel;
`none` models the `TypeError` on an exhausted index with uncovered students.
Returns the selected slots together with the final state of the (mutated)
working index. -/
def minCoverLoop (U : Finset Email) : Nat → List Slot → Finset Email → Option (List Slot × List Slot)
  | 0, slots, covered => if covered.card < U.card then none else some ([], slots)
  | fuel + 1, slots, covered =>
    if covered.card < U.card then
      match minRoundPick covered slots with
      | none => none
      | some b =>
        (minCoverLoop U fuel (slots.eraseP (fun s => decide (s.1 = b.1))) (covered ∪ b.2.toFinset)).map
          (fun p => (b :: p.1, p.2))
    else some ([], slots)

/-- Checks that every entry of a selection contributes at least one
participant not covered before it (the per-round new coverage is positive). -/
def freshCoverageB (cov : Finset Email) : List Slot → Bool
  | [] => true
  | s :: rest => s.2.any (fun e => decide (e ∉ cov)) && freshCoverageB (cov ∪ s.2.toFinset) rest

/-- `getMinimumTimeSlots`, keeping both outputs: the selected slots and the
final state of the caller's (consumed) index. -/
def runMinimumTimeSlots (slots : List Slot) : Option (List Slot × List Slot) :=
  minCoverLoop (studentsOf slots) slots.length slots ∅

/-- The return value of the source's `getMinimumTimeSlots`: the selected
slots, each carrying the slot's full email list. -/
def getMinimumTimeSlots (slots : List Slot) : Option (List Slot) :=
  (runMinimumTimeSlots slots).map Prod.fst

/-! ### Threshold iterative selector (`getIterativeTimeSlots`) -/

/-- A slot's email list restricted to the remaining pool
(`studentEmails.filter(email => remainingStudents.has(email))`). -/
def filteredEmails (remaining : Finset Email) (s : Slot) : List Email :=
  s.2.filter (fun e => decide (e ∈ remaining))

/-- Size of a slot's intersection with the remaining pool. -/
def filteredCount (remaining : Finset Email) (s : Slot) : Nat :=
  (filteredEmails remaining s).length

/-- The candidate list of one iterative round: every slot restricted to the
remaining pool, keeping only non-empty restrictions
(`.map(...).filter(([_, __, count]) => count > 0)`). -/
def candidates (slots : List Slot) (remaining : Finset Email) : List Slot :=
  (slots.map (fun s => (s.1, filteredEmails remaining s))).filter
    (fun s => decide (0 < s.2.length))

/-- One ranking round of `getIterativeTimeSlots`: build the candidates, sort
by student count (descending, stable), take `sortedSlots[0]` (the source
checks `sortedSlots.length === 0` first, hence `Option`). -/
def iterRoundPick (remaining : Finset Email) (slots : List Slot) : Option Slot :=
  (sortDesc (fun s => s.2.length) (candidates slots remaining)).head?

/-- The greedy loop of `getIterativeTimeSlots`.  Each selecting round removes
a non-empty subset of `remaining`, so `remaining.card + 1` is adequate fuel.
Returns the selections (each with its filtered email list) and the final
remaining pool. -/
def iterLoop (slots : List Slot) (minG : Int) : Nat → Finset Email → List Slot × Finset Email
  | 0, remaining => ([], remaining)
  | fuel + 1, remaining =>
    if minG ≤ (remaining.card : Int) then
      match iterRoundPick remaining slots with
      | none => ([], remaining)
      | some b =>
        if (b.2.length : Int) < minG then ([], remaining)
        else
          let p := iterLoop slots minG fuel (remaining \ b.2.toFinset)
          (b :: p.1, p.2)
    else ([], remaining)

/-- The observable outcome of `getIterativeTimeSlots`: the rows appended to
the sheet, the exclusion report written to cells D2/E2/F2, and the state of
the remaining pool when the loop exits. -/
structure IterResult where
  selections : List Slot
  remaining : Finset Email
  totalStudents : Nat
  excludedOut : List Email
  numExcludedOut : Nat
  totalOut : Nat
  deriving DecidableEq

/-- `getIterativeTimeSlots(selectedSlots, minGroupSize, ..., excludedStudents)`:
runs the threshold-gated greedy loop and reports the externally supplied
`excludedStudents` in the exclusion cells. -/
def getIterativeTimeSlots (slots : List Slot) (minG : Int) (excludedStudents : List Email) :
    IterResult :=
  let remaining0 := studentsOf slots
  let p := iterLoop slots minG (remaining0.card + 1) remaining0
  { selections := p.1
    remaining := p.2
    totalStudents := (p.1.map (fun s => s.2.length)).sum
    excludedOut := excludedStudents
    numExcludedOut := excludedStudents.length
    totalOut := excludedStudents.length + (p.1.map (fun s => s.2.length)).sum }

/-! ### Availability index builder (`findAvailableSlotsForEmails`)

A row of the `final-availabilities` sheet is embedded as the participant's
email together with the seven per-day availability strings (a missing or
empty cell is the empty string, which is falsy in JavaScript). -/

/-- Day names, paired positionally with the availability columns. -/
def days : List String := ["Mon", "Tue", "Wed", "Thu", "Fri", "Sat", "Sun"]

/-- JavaScript `String.prototype.trim()`: strip leading and trailing
whitespace (implemented over the character list so that concrete instances
evaluate in the kernel). -/
def jsTrim (s : String) : String :=
  String.mk (((s.data.dropWhile Char.isWhitespace).reverse.dropWhile Char.isWhitespace).reverse)

/-- Split a character list at every comma; like JavaScript's
`split(',')`, empty pieces are kept. -/
def splitCommaAux : List Char → List Char → List (List Char)
  | [], cur => [cur.reverse]
  | c :: cs, cur =>
    if c = ',' then cur.reverse :: splitCommaAux cs [] else splitCommaAux cs (c :: cur)

/-- JavaScript `String.prototype.split(',')`. -/
def jsSplitComma (s : String) : List String :=
  (splitCommaAux s.data []).map String.mk

/-- `timeSlotsString.split(',').map(slot => slot.trim())`: every token is
kept, including empty ones (e.g. from a trailing comma). -/
def splitTokens (s : String) : List String :=
  (jsSplitComma s).map jsTrim

/-- `if (!availableSlots[key]) availableSlots[key] = []; availableSlots[key].push(email)`:
append the email to an existing entry, or create a new entry at the end
(JavaScript objects append new string keys in insertion order). -/
def upsert (idx : List Slot) (k : String) (e : Email) : List Slot :=
  if idx.any (fun s => decide (s.1 = k)) then
    idx.map (fun s => if s.1 = k then (s.1, s.2 ++ [e]) else s)
  else idx ++ [(k, [e])]

/-- Process one participant row: for each day whose availability string is
non-empty, split it into tokens and record the participant under the label
`day ++ " " ++ token` for every token. -/
def addRow (idx : List Slot) (email : Email) (avail : List String) : List Slot :=
  (days.zip avail).foldl
    (fun idx dv =>
      if dv.2 = "" then idx
      else (splitTokens dv.2).foldl (fun idx tok => upsert idx (dv.1 ++ " " ++ tok) email) idx)
    idx

/-- The accumulation loop of `findAvailableSlotsForEmails`: rows whose email
is not in the requested list are skipped. -/
def availableSlots (emails : List Email) (rows : List (Email × List String)) : List Slot :=
  rows.foldl (fun idx r => if r.1 ∈ emails then addRow idx r.1 r.2 else idx) []

/-- Keep only the slots reaching the threshold
(`.filter(([_, list]) => list.length >= thresh)`). -/
def filterThresh (thresh : Nat) (idx : List Slot) : List Slot :=
  idx.filter (fun s => decide (thresh ≤ s.2.length))

/-- `new Set(Object.values(filteredSlots).flat())`. -/
def includedStudents (idx : List Slot) : Finset Email := studentsOf idx

/-- `emails.filter(email => !includedStudents.has(email))`. -/
def excludedStudentsOf (emails : List Email) (idx : List Slot) : List Email :=
  emails.filter (fun e => decide (e ∉ includedStudents idx))

/-- `findAvailableSlotsForEmails(emails, thresh)` over the given sheet rows:
returns the thresholded index and the excluded students. -/
def findAvailableSlotsForEmails (rows : List (Email × List String)) (emails : List Email)
    (thresh : Nat) : List Slot × List Email :=
  let filtered := filterThresh thresh (availableSlots emails rows)
  (filtered, excludedStudentsOf emails filtered)

end SchedulingTracks

/-! ### Lemmas about the stable descending sort -/

namespace SchedulingTracks

lemma mem_insertDesc {score : α → Nat} {x y : α} {l : List α} :
    y ∈ insertDesc score x l ↔ y = x ∨ y ∈ l := by
  induction l with
  | nil => simp [insertDesc]
  | cons z zs ih =>
    simp only [insertDesc]
    split <;> simp only [List.mem_cons, ih]
    tauto

lemma mem_sortDesc {score : α → Nat} {y : α} {l : List α} :
    y ∈ sortDesc score l ↔ y ∈ l := by
  induction l with
  | nil => simp [sortDesc]
  | cons x xs ih => simp [sortDesc, mem_insertDesc, ih]

lemma insertDesc_ne_nil {score : α → Nat} (x : α) (l : List α) :
    insertDesc score x l ≠ [] := by
  cases l with
  | nil => simp [insertDesc]
  | cons z zs =>
    simp only [insertDesc]
    split <;> simp

lemma head?_insertDesc_of_le {score : α → Nat} {x : α} {l : List α}
    (h : ∀ y ∈ l, score y ≤ score x) : (insertDesc score x l).head? = some x := by
  cases l with
  | nil => rfl
  | cons z zs =>
    have hz := h z (by simp)
    simp only [insertDesc]
    rw [if_neg (by omega)]
    rfl

lemma head?_sortDesc_max {score : α → Nat} {l : List α} {b : α}
    (hb : (sortDesc score l).head? = some b) : ∀ y ∈ l, score y ≤ score b := by
  induction l generalizing b with
  | nil => simp [sortDesc] at hb
  | cons x xs ih =>
    simp only [sortDesc] at hb
    rcases hs : sortDesc score xs with _ | ⟨z, zs⟩
    · rw [hs] at hb
      simp only [insertDesc, List.head?_cons, Option.some.injEq] at hb
      subst hb
      intro y hy
      rcases List.mem_cons.mp hy with h | h
      · subst h; exact le_refl _
      · exact absurd (mem_sortDesc.mpr h) (by rw [hs]; simp)
    · rw [hs] at hb
      simp only [insertDesc] at hb
      have ihz : ∀ y ∈ xs, score y ≤ score z := ih (by rw [hs]; rfl)
      by_cases hcmp : score x < score z
      · rw [if_pos hcmp] at hb
        simp only [List.head?_cons, Option.some.injEq] at hb
        subst hb
        intro y hy
        rcases List.mem_cons.mp hy with h | h
        · subst h; exact le_of_lt hcmp
        · exact ihz y h
      · rw [if_neg hcmp] at hb
        simp only [List.head?_cons, Option.some.injEq] at hb
        subst hb
        intro y hy
        rcases List.mem_cons.mp hy with h | h
        · subst h; exact le_refl _
        · exact le_trans (ihz y h) (by omega)

/-- The first element of the stable descending sort is the earliest-inserted
element of maximal score: insertion-order tie-breaking. -/
lemma head?_sortDesc_append {score : α → Nat} {l₁ l₂ : List α} {a : α}
    (h₁ : ∀ y ∈ l₁, score y < score a) (h₂ : ∀ y ∈ l₂, score y ≤ score a) :
    (sortDesc score (l₁ ++ a :: l₂)).head? = some a := by
  induction l₁ with
  | nil =>
    simp only [List.nil_append, sortDesc]
    exact head?_insertDesc_of_le fun y hy => h₂ y (mem_sortDesc.mp hy)
  | cons x rest ih =>
    have hin : (sortDesc score (rest ++ a :: l₂)).head? = some a :=
      ih fun y hy => h₁ y (by simp [hy])
    simp only [List.cons_append, sortDesc]
    rcases hs : sortDesc score (rest ++ a :: l₂) with _ | ⟨z, zs⟩
    · rw [hs] at hin; simp at hin
    · rw [hs] at hin
      simp only [List.head?_cons, Option.some.injEq] at hin
      subst hin
      simp only [insertDesc]
      rw [if_pos (h₁ x (by simp))]
      rfl

end SchedulingTracks

/-! ### List and key helper lemmas -/

namespace SchedulingTracks

lemma mem_of_head? {l : List α} {a : α} (h : l.head? = some a) : a ∈ l := by
  cases l with
  | nil => simp at h
  | cons x xs =>
    simp only [List.head?_cons, Option.some.injEq] at h
    subst h
    simp

lemma exists_head?_of_ne_nil {l : List α} (h : l ≠ []) : ∃ a, l.head? = some a := by
  cases l with
  | nil => exact absurd rfl h
  | cons x xs => exact ⟨x, rfl⟩

lemma length_filter_lt {p : α → Bool} {l : List α} {b : α}
    (hb : b ∈ l) (hpb : p b = false) : (l.filter p).length < l.length := by
  induction l with
  | nil => simp at hb
  | cons x xs ih =>
    rcases hpx : p x with _ | _
    · simp only [List.filter_cons, hpx, List.length_cons]
      calc (xs.filter p).length ≤ xs.length := List.length_filter_le _ _
        _ < xs.length + 1 := Nat.lt_succ_self _
    · have hbxs : b ∈ xs := by
        rcases List.mem_cons.mp hb with h | h
        · subst h; rw [hpx] at hpb; cases hpb
        · exact h
      simp only [List.filter_cons, hpx, List.length_cons]
      exact Nat.succ_lt_succ (ih hbxs)

lemma keysNodup_of_sublist {l₁ l₂ : List Slot} (hs : l₁.Sublist l₂)
    (h : keysNodup l₂) : keysNodup l₁ :=
  List.Nodup.sublist (hs.map Prod.fst) h

lemma key_inj {l : List Slot} (h : keysNodup l) {s t : Slot}
    (hs : s ∈ l) (ht : t ∈ l) (hk : s.1 = t.1) : s = t := by
  induction l with
  | nil => simp at hs
  | cons x xs ih =>
    rw [keysNodup, List.map_cons, List.nodup_cons] at h
    rcases List.mem_cons.mp hs with h1 | h1 <;> rcases List.mem_cons.mp ht with h2 | h2
    · rw [h1, h2]
    · subst h1
      exact absurd (List.mem_map.mpr ⟨t, h2, hk.symm⟩) h.1
    · subst h2
      exact absurd (List.mem_map.mpr ⟨s, h1, hk⟩) h.1
    · exact ih h.2 h1 h2

/-- With pairwise-distinct keys, deleting the first entry with a given key
deletes exactly the entries with that key. -/
lemma eraseP_eq_filter_of_keysNodup {l : List Slot} (h : keysNodup l) (k : String) :
    l.eraseP (fun s => decide (s.1 = k)) = l.filter (fun s => decide (s.1 ≠ k)) := by
  induction l with
  | nil => rfl
  | cons x xs ih =>
    rw [keysNodup, List.map_cons, List.nodup_cons] at h
    by_cases hx : x.1 = k
    · rw [List.eraseP_cons_of_pos (by simp [hx]), List.filter_cons_of_neg (by simp [hx])]
      symm
      apply List.filter_eq_self.mpr
      intro s hsx
      have : s.1 ≠ k := by
        intro hsk
        exact h.1 (List.mem_map.mpr ⟨s, hsx, by rw [hsk, hx]⟩)
      simp [this]
    · rw [List.eraseP_cons_of_neg (by simp [hx]), List.filter_cons_of_pos (by simp [hx])]
      rw [ih h.2]

lemma studentsOf_nil : studentsOf [] = ∅ := rfl

lemma studentsOf_cons (s : Slot) (l : List Slot) :
    studentsOf (s :: l) = s.2.toFinset ∪ studentsOf l := by
  rw [studentsOf, studentsOf, List.map_cons, List.flatten_cons, List.toFinset_append]

lemma mem_studentsOf {e : Email} {l : List Slot} :
    e ∈ studentsOf l ↔ ∃ s ∈ l, e ∈ s.2 := by
  rw [studentsOf, List.mem_toFinset, List.mem_flatten]
  constructor
  · rintro ⟨t, ht, he⟩
    obtain ⟨s, hs, rfl⟩ := List.mem_map.mp ht
    exact ⟨s, hs, he⟩
  · rintro ⟨s, hs, he⟩
    exact ⟨s.2, List.mem_map.mpr ⟨s, hs, rfl⟩, he⟩

end SchedulingTracks

/-! ### Main invariant of the minimum-cover greedy loop -/

namespace SchedulingTracks

/-- The greedy loop of `getMinimumTimeSlots` never crashes when the keys are
distinct and every uncovered participant still has a slot; it covers `U`
exactly, every round adds fresh coverage, the number of rounds is bounded by
`U.card`, the final working index is the original minus the selected keys,
and every selected entry came from the index. -/
lemma minCoverLoop_spec (U : Finset Email) (fuel : Nat) :
    ∀ (slots : List Slot) (covered : Finset Email),
      slots.length ≤ fuel →
      keysNodup slots →
      covered ⊆ U →
      (∀ s ∈ slots, ∀ e ∈ s.2, e ∈ U) →
      (∀ e ∈ U, e ∉ covered → ∃ s ∈ slots, e ∈ s.2) →
      ∃ sel rest, minCoverLoop U fuel slots covered = some (sel, rest) ∧
        covered ∪ studentsOf sel = U ∧
        freshCoverageB covered sel = true ∧
        sel.length + covered.card ≤ U.card ∧
        rest = slots.filter (fun s => decide (s.1 ∉ sel.map Prod.fst)) ∧
        ∀ s ∈ sel, s ∈ slots := by
  induction fuel with
  | zero =>
    intro slots covered hlen hkeys hsub helems huncov
    have hnil : slots = [] := List.eq_nil_of_length_eq_zero (Nat.le_zero.mp hlen)
    subst hnil
    have hcovU : covered = U := by
      by_contra hne
      have hss : covered ⊂ U := Finset.ssubset_iff_subset_ne.mpr ⟨hsub, hne⟩
      obtain ⟨e, heU, hec⟩ := Finset.exists_of_ssubset hss
      obtain ⟨s, hs, _⟩ := huncov e heU hec
      simp at hs
    refine ⟨[], [], ?_, ?_, rfl, ?_, rfl, by simp⟩
    · simp [minCoverLoop, hcovU]
    · rw [studentsOf_nil, Finset.union_empty, hcovU]
    · simp [hcovU]
  | succ fuel ih =>
    intro slots covered hlen hkeys hsub helems huncov
    by_cases hlt : covered.card < U.card
    · have hss : covered ⊂ U := Finset.ssubset_iff_subset_ne.mpr
        ⟨hsub, fun he => absurd (he ▸ hlt) (lt_irrefl _)⟩
      obtain ⟨e₀, he₀U, he₀c⟩ := Finset.exists_of_ssubset hss
      obtain ⟨s₀, hs₀, he₀s₀⟩ := huncov e₀ he₀U he₀c
      have hnnil : slots ≠ [] := fun h => by simp [h] at hs₀
      have hsortnnil : sortDesc (newCoverage covered) slots ≠ [] := by
        cases slots with
        | nil => exact absurd rfl hnnil
        | cons x xs => exact insertDesc_ne_nil _ _
      obtain ⟨b, hb⟩ := exists_head?_of_ne_nil hsortnnil
      have hpick : minRoundPick covered slots = some b := hb
      have hbmem : b ∈ slots := mem_sortDesc.mp (mem_of_head? hb)
      have hmax : ∀ y ∈ slots, newCoverage covered y ≤ newCoverage covered b :=
        head?_sortDesc_max hb
      have hpos : 0 < newCoverage covered b := by
        refine lt_of_lt_of_le ?_ (hmax s₀ hs₀)
        exact List.length_pos_of_mem (List.mem_filter.mpr ⟨he₀s₀, by simpa using he₀c⟩)
      obtain ⟨e', he'⟩ := List.exists_mem_of_length_pos hpos
      obtain ⟨he'b, he'c⟩ := List.mem_filter.mp he'
      have he'cov : e' ∉ covered := by simpa using he'c
      have herase : slots.eraseP (fun s => decide (s.1 = b.1)) =
          slots.filter (fun s => decide (s.1 ≠ b.1)) :=
        eraseP_eq_filter_of_keysNodup hkeys b.1
      have hlen' : (slots.filter (fun s => decide (s.1 ≠ b.1))).length ≤ fuel := by
        have := length_filter_lt (p := fun s => decide (s.1 ≠ b.1)) hbmem (by simp)
        omega
      have hkeys' : keysNodup (slots.filter (fun s => decide (s.1 ≠ b.1))) :=
        keysNodup_of_sublist (List.filter_sublist _) hkeys
      have hsub' : covered ∪ b.2.toFinset ⊆ U := by
        apply Finset.union_subset hsub
        intro e he
        exact helems b hbmem e (List.mem_toFinset.mp he)
      have helems' : ∀ s ∈ slots.filter (fun s => decide (s.1 ≠ b.1)), ∀ e ∈ s.2, e ∈ U :=
        fun s hs => helems s (List.mem_of_mem_filter hs)
      have huncov' : ∀ e ∈ U, e ∉ covered ∪ b.2.toFinset →
          ∃ s ∈ slots.filter (fun s => decide (s.1 ≠ b.1)), e ∈ s.2 := by
        intro e heU hec
        rw [Finset.mem_union, not_or] at hec
        obtain ⟨s, hs, hes⟩ := huncov e heU hec.1
        have hkey : s.1 ≠ b.1 := by
          intro hk
          have hsb : s = b := key_inj hkeys hs hbmem hk
          subst hsb
          exact hec.2 (List.mem_toFinset.mpr hes)
        exact ⟨s, List.mem_filter.mpr ⟨hs, by simp [hkey]⟩, hes⟩
      obtain ⟨sel, rest, heq, hcovU, hfresh, hlens, hrest, hselmem⟩ :=
        ih (slots.filter (fun s => decide (s.1 ≠ b.1))) (covered ∪ b.2.toFinset)
          hlen' hkeys' hsub' helems' huncov'
      refine ⟨b :: sel, rest, ?_, ?_, ?_, ?_, ?_, ?_⟩
      · simp only [minCoverLoop, hlt, if_true, hpick, herase, heq, Option.map_some']
      · rw [studentsOf_cons, ← Finset.union_assoc]
        exact hcovU
      · simp only [freshCoverageB, Bool.and_eq_true]
        exact ⟨List.any_eq_true.mpr ⟨e', he'b, by simpa using he'cov⟩, hfresh⟩
      · have hcardlt : covered.card < (covered ∪ b.2.toFinset).card := by
          apply Finset.card_lt_card
          rw [Finset.ssubset_iff_subset_ne]
          refine ⟨Finset.subset_union_left, ?_⟩
          intro hcc
          exact he'cov (hcc ▸ Finset.mem_union_right _ (List.mem_toFinset.mpr he'b))
        simp only [List.length_cons]
        omega
      · rw [hrest, List.filter_filter]
        apply List.filter_congr
        intro s hs
        by_cases h1 : s.1 = b.1 <;> by_cases h2 : s.1 ∈ sel.map Prod.fst <;>
          simp [h1, h2]
      · intro s hs
        rcases List.mem_cons.mp hs with h | h
        · subst h; exact hbmem
        · exact List.mem_of_mem_filter (hselmem s h)
    · refine ⟨[], slots, ?_, ?_, rfl, ?_, ?_, by simp⟩
      · simp [minCoverLoop, hlt]
      · rw [studentsOf_nil, Finset.union_empty]
        exact Finset.eq_of_subset_of_card_le hsub (Nat.le_of_not_lt hlt)
      · simpa using Finset.card_le_card hsub
      · symm
        apply List.filter_eq_self.mpr
        intro s hs
        simp

end SchedulingTracks

/-! ### Corollaries of the main invariant, and lemmas about the iterative loop -/

namespace SchedulingTracks

/-- `runMinimumTimeSlots` on an index with distinct keys: full specification. -/
lemma runMinimumTimeSlots_spec (slots : List Slot) (h : keysNodup slots) :
    ∃ sel rest, runMinimumTimeSlots slots = some (sel, rest) ∧
      studentsOf sel = studentsOf slots ∧
      freshCoverageB ∅ sel = true ∧
      sel.length ≤ (studentsOf slots).card ∧
      rest = slots.filter (fun s => decide (s.1 ∉ sel.map Prod.fst)) ∧
      ∀ s ∈ sel, s ∈ slots := by
  obtain ⟨sel, rest, heq, hcov, hfresh, hlen, hrest, hmem⟩ :=
    minCoverLoop_spec (studentsOf slots) slots.length slots ∅ (le_refl _) h
      (Finset.empty_subset _)
      (fun s hs e he => mem_studentsOf.mpr ⟨s, hs, he⟩)
      (fun e he _ => mem_studentsOf.mp he)
  rw [Finset.empty_union] at hcov
  refine ⟨sel, rest, heq, hcov, hfresh, ?_, hrest, hmem⟩
  simpa using hlen

lemma mem_candidates {slots : List Slot} {rem : Finset Email} {c : Slot} :
    c ∈ candidates slots rem ↔
      (∃ s ∈ slots, (s.1, filteredEmails rem s) = c) ∧ 0 < c.2.length := by
  simp [candidates, List.mem_filter, List.mem_map]

lemma candidates_append {u v : List Slot} {rem : Finset Email} :
    candidates (u ++ v) rem = candidates u rem ++ candidates v rem := by
  simp [candidates, List.map_append, List.filter_append]

lemma candidates_cons_of_pos {a : Slot} {l : List Slot} {rem : Finset Email}
    (h : 0 < (filteredEmails rem a).length) :
    candidates (a :: l) rem = (a.1, filteredEmails rem a) :: candidates l rem := by
  simp only [candidates, List.map_cons]
  rw [List.filter_cons_of_pos (by simpa using h)]

lemma iterRoundPick_mem {rem : Finset Email} {slots : List Slot} {b : Slot}
    (h : iterRoundPick rem slots = some b) : b ∈ candidates slots rem :=
  mem_sortDesc.mp (mem_of_head? h)

lemma iterRoundPick_pos {rem : Finset Email} {slots : List Slot} {b : Slot}
    (h : iterRoundPick rem slots = some b) : 0 < b.2.length :=
  (mem_candidates.mp (iterRoundPick_mem h)).2

/-- Every selection appended by the iterative loop has at least `minG`
members: the loop breaks before selecting a too-small winner. -/
lemma iterLoop_min_size (slots : List Slot) (minG : Int) :
    ∀ (fuel : Nat) (rem : Finset Email) (s : Slot),
      s ∈ (iterLoop slots minG fuel rem).1 → minG ≤ (s.2.length : Int) := by
  intro fuel
  induction fuel with
  | zero => intro rem s hs; simp [iterLoop] at hs
  | succ fuel ih =>
    intro rem s hs
    simp only [iterLoop] at hs
    by_cases hc : minG ≤ (rem.card : Int)
    · rw [if_pos hc] at hs
      rcases hp : iterRoundPick rem slots with _ | b
      · rw [hp] at hs; simp at hs
      · rw [hp] at hs
        dsimp only at hs
        by_cases hsmall : (b.2.length : Int) < minG
        · rw [if_pos hsmall] at hs; simp at hs
        · rw [if_neg hsmall] at hs
          simp only [List.mem_cons] at hs
          rcases hs with h | h
          · subst h; omega
          · exact ih _ s h
    · rw [if_neg hc] at hs; simp at hs

/-- A negative `minGroupSize` is never rejected: since every candidate has a
positive count, the loop behaves exactly as with `minGroupSize = 0`. -/
lemma iterLoop_neg_eq_zero (slots : List Slot) (minG : Int) (hneg : minG < 0) :
    ∀ (fuel : Nat) (rem : Finset Email),
      iterLoop slots minG fuel rem = iterLoop slots 0 fuel rem := by
  intro fuel
  induction fuel with
  | zero => intro rem; rfl
  | succ fuel ih =>
    intro rem
    simp only [iterLoop]
    rw [if_pos (le_trans (le_of_lt hneg) (Int.natCast_nonneg _)),
      if_pos (Int.natCast_nonneg _)]
    rcases hp : iterRoundPick rem slots with _ | b
    · rfl
    · have hposb : 0 < b.2.length := iterRoundPick_pos hp
      dsimp only
      rw [if_neg (by omega), if_neg (by omega)]
      simp only [ih]

end SchedulingTracks

/-! ### Key-preservation lemmas for the index builder -/

namespace SchedulingTracks

lemma mem_keys_upsert_self (idx : List Slot) (k : String) (e : Email) :
    k ∈ (upsert idx k e).map Prod.fst := by
  unfold upsert
  split
  · rename_i h
    obtain ⟨t, ht, hd⟩ := List.any_eq_true.mp h
    have hk : t.1 = k := of_decide_eq_true hd
    exact List.mem_map.mpr ⟨(t.1, t.2 ++ [e]), List.mem_map.mpr ⟨t, ht, by simp [hk]⟩, hk⟩
  · simp

lemma mem_keys_upsert_of_mem {idx : List Slot} {k' : String} (k : String) (e : Email)
    (h : k' ∈ idx.map Prod.fst) : k' ∈ (upsert idx k e).map Prod.fst := by
  unfold upsert
  split
  · obtain ⟨t, ht, hk⟩ := List.mem_map.mp h
    apply List.mem_map.mpr
    by_cases htk : t.1 = k
    · exact ⟨(t.1, t.2 ++ [e]), List.mem_map.mpr ⟨t, ht, by simp [htk]⟩, hk⟩
    · exact ⟨t, List.mem_map.mpr ⟨t, ht, by simp [htk]⟩, hk⟩
  · rw [List.map_append]
    exact List.mem_append_left _ h

lemma mem_keys_foldl_upsert_of_mem (g : String → String) (e : Email) :
    ∀ (toks : List String) (idx : List Slot) (k' : String),
      k' ∈ idx.map Prod.fst →
      k' ∈ (toks.foldl (fun i t => upsert i (g t) e) idx).map Prod.fst := by
  intro toks
  induction toks with
  | nil => intro idx k' h; simpa using h
  | cons t ts ih =>
    intro idx k' h
    simp only [List.foldl_cons]
    exact ih _ _ (mem_keys_upsert_of_mem (g t) e h)

lemma mem_keys_foldl_upsert_self (g : String → String) (e : Email) :
    ∀ (toks : List String) (idx : List Slot) (tok : String), tok ∈ toks →
      g tok ∈ (toks.foldl (fun i t => upsert i (g t) e) idx).map Prod.fst := by
  intro toks
  induction toks with
  | nil => intro idx tok h; simp at h
  | cons t ts ih =>
    intro idx tok h
    simp only [List.foldl_cons]
    rcases List.mem_cons.mp h with h | h
    · subst h
      exact mem_keys_foldl_upsert_of_mem g e ts _ _ (mem_keys_upsert_self idx (g tok) e)
    · exact ih _ _ h

end SchedulingTracks

/-! ### Claim theorems -/

namespace SchedulingTracks

/-- C1: for every availability index (with the distinct keys every JavaScript
object has), `getMinimumTimeSlots` succeeds and the union of participant keys
over the selected slots equals the universe of participant keys of the index. -/
theorem minCover_coverage_totality (slots : List Slot) (h : keysNodup slots) :
    ∃ sel, getMinimumTimeSlots slots = some sel ∧ studentsOf sel = studentsOf slots := by
  obtain ⟨sel, rest, heq, hcov, _, _, _, _⟩ := runMinimumTimeSlots_spec slots h
  exact ⟨sel, by simp [getMinimumTimeSlots, heq], hcov⟩

/-- C1 witness: the coverage theorem at a concrete two-slot index. -/
theorem minCover_coverage_totality_witness :
    keysNodup [("A", ["p1", "p2"]), ("B", ["p2", "p3"])] ∧
    ∃ sel, getMinimumTimeSlots [("A", ["p1", "p2"]), ("B", ["p2", "p3"])] = some sel ∧
      studentsOf sel = studentsOf [("A", ["p1", "p2"]), ("B", ["p2", "p3"])] :=
  ⟨by decide, minCover_coverage_totality _ (by decide)⟩

/-- C2 (counterexample): disjointness fails — the selector stores each
winning slot's full email list, so `p1` (covered by slot A in round one)
appears again in selected slot B. -/
theorem minCover_disjointness_counterexample :
    getMinimumTimeSlots [("A", ["p1", "p2", "p3"]), ("B", ["p1", "p4", "p5"])] =
      some [("A", ["p1", "p2", "p3"]), ("B", ["p1", "p4", "p5"])] ∧
    "p1" ∈ (["p1", "p2", "p3"] : List Email) ∧ "p1" ∈ (["p1", "p4", "p5"] : List Email) :=
  ⟨by decide, by decide, by decide⟩

/-- C2 (amended): a participant may appear in several selected entries, but
every selected entry contains at least one participant not covered by any
earlier entry. -/
theorem minCover_fresh_coverage (slots : List Slot) (h : keysNodup slots) :
    ∃ sel, getMinimumTimeSlots slots = some sel ∧ freshCoverageB ∅ sel = true := by
  obtain ⟨sel, rest, heq, _, hfresh, _, _, _⟩ := runMinimumTimeSlots_spec slots h
  exact ⟨sel, by simp [getMinimumTimeSlots, heq], hfresh⟩

/-- C2 (amended) witness at the index of the counterexample. -/
theorem minCover_fresh_coverage_witness :
    keysNodup [("A", ["p1", "p2", "p3"]), ("B", ["p1", "p4", "p5"])] ∧
    ∃ sel, getMinimumTimeSlots [("A", ["p1", "p2", "p3"]), ("B", ["p1", "p4", "p5"])] = some sel ∧
      freshCoverageB ∅ sel = true :=
  ⟨by decide, minCover_fresh_coverage _ (by decide)⟩

/-- C3 (counterexample): with slots `{A: [p1,p2], B: [p3,p4]}` and
`minGroupSize = 3` the selection is empty, yet the reported exclusion cells
hold only the externally supplied list (here `[]`), not the four participants
left in `remaining` — the claimed `remaining ∪ pre-excluded` report fails. -/
theorem iter_exclusion_counterexample :
    (getIterativeTimeSlots [("A", ["p1", "p2"]), ("B", ["p3", "p4"])] 3 []).selections = [] ∧
    (getIterativeTimeSlots [("A", ["p1", "p2"]), ("B", ["p3", "p4"])] 3 []).excludedOut = [] ∧
    (getIterativeTimeSlots [("A", ["p1", "p2"]), ("B", ["p3", "p4"])] 3 []).remaining =
      ({"p1", "p2", "p3", "p4"} : Finset Email) ∧
    (getIterativeTimeSlots [("A", ["p1", "p2"]), ("B", ["p3", "p4"])] 3 []).excludedOut.toFinset ≠
      (getIterativeTimeSlots [("A", ["p1", "p2"]), ("B", ["p3", "p4"])] 3 []).remaining ∪
        ([] : List Email).toFinset :=
  ⟨by decide, by decide, by decide, by decide⟩

/-- C3 (amended): the exclusion report of `getIterativeTimeSlots` is exactly
the externally supplied pre-excluded list (D2 content, E2 count, F2 total);
participants still in `remaining` at termination are not added to it, as the
concrete threshold-rejection example shows. -/
theorem iter_exclusion_report :
    (∀ (slots : List Slot) (minG : Int) (pre : List Email),
        (getIterativeTimeSlots slots minG pre).excludedOut = pre ∧
        (getIterativeTimeSlots slots minG pre).numExcludedOut = pre.length ∧
        (getIterativeTimeSlots slots minG pre).totalOut =
          pre.length + (getIterativeTimeSlots slots minG pre).totalStudents) ∧
    (getIterativeTimeSlots [("A", ["p1", "p2"]), ("B", ["p3", "p4"])] 3 ["x1"]).excludedOut =
      ["x1"] ∧
    (getIterativeTimeSlots [("A", ["p1", "p2"]), ("B", ["p3", "p4"])] 3 ["x1"]).remaining =
      ({"p1", "p2", "p3", "p4"} : Finset Email) :=
  ⟨fun slots minG pre => ⟨rfl, rfl, rfl⟩, by decide, by decide⟩

/-- C4: every selection appended by the threshold iterative selector has at
least `minGroupSize` participants — a winning slot whose filtered size is
below the threshold stops the loop without being selected. -/
theorem iter_threshold_gating (slots : List Slot) (minG : Int) (pre : List Email) :
    ∀ s ∈ (getIterativeTimeSlots slots minG pre).selections, minG ≤ (s.2.length : Int) := by
  intro s hs
  exact iterLoop_min_size slots minG _ _ s hs

/-- C4 witness: at `minGroupSize = 1` the selected slot has 2 ≥ 1 members. -/
theorem iter_threshold_gating_witness :
    ("A", ["p1", "p2"]) ∈ (getIterativeTimeSlots [("A", ["p1", "p2"])] 1 []).selections ∧
    (1 : Int) ≤ (((["p1", "p2"] : List Email)).length : Int) :=
  ⟨by decide, iter_threshold_gating [("A", ["p1", "p2"])] 1 [] ("A", ["p1", "p2"]) (by decide)⟩

/-- C5: tie-break determinism by insertion order — in both selectors, when a
slot attains the round's maximal score and every earlier slot scores strictly
below it (so among tied maximal slots it is the earliest inserted, e.g. a
later slot `b` ties with it), the round picks exactly that slot. -/
theorem tie_break_insertion_order :
    (∀ (covered : Finset Email) (l₁ l₂ : List Slot) (a b : Slot), b ∈ l₂ →
        newCoverage covered b = newCoverage covered a →
        (∀ s ∈ l₁ ++ a :: l₂, newCoverage covered s ≤ newCoverage covered a) →
        (∀ s ∈ l₁, newCoverage covered s < newCoverage covered a) →
        minRoundPick covered (l₁ ++ a :: l₂) = some a) ∧
    (∀ (remaining : Finset Email) (l₁ l₂ : List Slot) (a b : Slot), b ∈ l₂ →
        filteredCount remaining b = filteredCount remaining a →
        0 < filteredCount remaining a →
        (∀ s ∈ l₁ ++ a :: l₂, filteredCount remaining s ≤ filteredCount remaining a) →
        (∀ s ∈ l₁, filteredCount remaining s < filteredCount remaining a) →
        iterRoundPick remaining (l₁ ++ a :: l₂) = some (a.1, filteredEmails remaining a)) := by
  constructor
  · intro covered l₁ l₂ a b hb hbeq hmax hstrict
    exact head?_sortDesc_append hstrict
      (fun y hy => hmax y (List.mem_append_right _ (List.mem_cons_of_mem _ hy)))
  · intro rem l₁ l₂ a b hb hbeq hpos hmax hstrict
    unfold iterRoundPick
    rw [candidates_append, candidates_cons_of_pos hpos]
    apply head?_sortDesc_append
    · intro y hy
      obtain ⟨⟨t, htl, hyt⟩, _⟩ := mem_candidates.mp hy
      subst hyt
      exact hstrict t htl
    · intro y hy
      obtain ⟨⟨t, htl, hyt⟩, _⟩ := mem_candidates.mp hy
      subst hyt
      exact hmax t (List.mem_append_right _ (List.mem_cons_of_mem _ htl))

/-- C5 witness: slots A and B tie (score 2); the earlier-inserted A wins in
both selectors. -/
theorem tie_break_insertion_order_witness :
    minRoundPick ∅ [("X", ["q1"]), ("A", ["p1", "p2"]), ("B", ["p1", "p3"])] =
      some ("A", ["p1", "p2"]) ∧
    iterRoundPick ({"p1", "p2", "p3", "q1"} : Finset Email)
        [("X", ["q1"]), ("A", ["p1", "p2"]), ("B", ["p1", "p3"])] =
      some ("A", ["p1", "p2"]) :=
  ⟨tie_break_insertion_order.1 ∅ [("X", ["q1"])] [("B", ["p1", "p3"])]
      ("A", ["p1", "p2"]) ("B", ["p1", "p3"]) (by decide) (by decide) (by decide) (by decide),
   tie_break_insertion_order.2 {"p1", "p2", "p3", "q1"} [("X", ["q1"])] [("B", ["p1", "p3"])]
      ("A", ["p1", "p2"]) ("B", ["p1", "p3"]) (by decide) (by decide) (by decide) (by decide)
      (by decide)⟩

/-- C6 (counterexample): `minGroupSize = -1` is not rejected — the selector
runs a full selection round and produces output. -/
theorem negative_group_size_counterexample :
    (getIterativeTimeSlots [("A", ["p1", "p2"])] (-1) []).selections = [("A", ["p1", "p2"])] ∧
    (getIterativeTimeSlots [("A", ["p1", "p2"])] (-1) []).totalStudents = 2 :=
  ⟨by decide, by decide⟩

/-- C6 (amended): a negative `minGroupSize` is accepted and the selector
behaves exactly as if `minGroupSize` were 0. -/
theorem negative_group_size_behaves_as_zero (slots : List Slot) (pre : List Email)
    (minG : Int) (h : minG < 0) :
    getIterativeTimeSlots slots minG pre = getIterativeTimeSlots slots 0 pre := by
  simp only [getIterativeTimeSlots, iterLoop_neg_eq_zero slots minG h]

/-- C6 (amended) witness at `minGroupSize = -1`. -/
theorem negative_group_size_behaves_as_zero_witness :
    (-1 : Int) < 0 ∧
    getIterativeTimeSlots [("A", ["p1"])] (-1) [] = getIterativeTimeSlots [("A", ["p1"])] 0 [] :=
  ⟨by decide, negative_group_size_behaves_as_zero _ _ _ (by decide)⟩

/-- C7: on an index with zero slots, the minimum-cover selector returns an
empty selection and an untouched empty index without error, the iterative
selector returns an empty selection, and the excluded-students computation of
the pipeline reports the full input population. -/
theorem empty_index_degenerate (emails : List Email) (minG : Int) :
    runMinimumTimeSlots [] = some ([], []) ∧
    (getIterativeTimeSlots [] minG (excludedStudentsOf emails [])).selections = [] ∧
    (getIterativeTimeSlots [] minG (excludedStudentsOf emails [])).excludedOut = emails := by
  refine ⟨rfl, ?_, ?_⟩
  · show (iterLoop [] minG 1 ∅).1 = []
    simp only [iterLoop]
    split
    · rfl
    · rfl
  · show excludedStudentsOf emails [] = emails
    unfold excludedStudentsOf
    apply List.filter_eq_self.mpr
    intro e he
    simp [includedStudents, studentsOf]

/-- C8 (counterexample): a trailing comma in a day's availability value
creates an index entry for the empty slot token — the built index contains
the key `"Mon "` (day name, space, empty token). -/
theorem builder_empty_token_counterexample :
    (findAvailableSlotsForEmails [("p1", ["10:00am,", "", "", "", "", "", ""])] ["p1"] 0).1 =
      [("Mon 10:00am", ["p1"]), ("Mon ", ["p1"])] ∧
    "Mon " ∈
      ((findAvailableSlotsForEmails [("p1", ["10:00am,", "", "", "", "", "", ""])] ["p1"] 0).1.map
        Prod.fst) :=
  ⟨by decide, by decide⟩

/-- C8 (amended): only a wholly empty (or missing) day value is skipped;
every token produced by splitting a non-empty value — the empty ones
included — yields an index entry labelled day-name, space, token. -/
theorem builder_keeps_empty_tokens (email : Email) (idx : List Slot) (s : String)
    (hs : ¬s = "") (tok : String) (htok : tok ∈ splitTokens s) :
    ("Mon" ++ " " ++ tok) ∈ (addRow idx email [s]).map Prod.fst := by
  unfold addRow
  have hz : days.zip [s] = [("Mon", s)] := rfl
  rw [hz]
  simp only [List.foldl_cons, List.foldl_nil]
  rw [if_neg hs]
  exact mem_keys_foldl_upsert_self _ email _ idx tok htok

/-- C8 (amended) witness: the trailing-comma token list of `"10:00am,"`
contains the empty token, and the built row index has the `"Mon "` key. -/
theorem builder_keeps_empty_tokens_witness :
    ¬("10:00am," : String) = "" ∧ "" ∈ splitTokens "10:00am," ∧
    ("Mon" ++ " " ++ "") ∈ (addRow [] "p1" ["10:00am,"]).map Prod.fst :=
  ⟨by decide, by decide, builder_keeps_empty_tokens "p1" [] "10:00am," (by decide) "" (by decide)⟩

/-- C9: `getMinimumTimeSlots` consumes the working index — afterwards it
holds exactly the non-selected slots, in order, with unchanged participant
lists, and every selected entry was an entry of the original index. -/
theorem minCover_consumes_index (slots : List Slot) (h : keysNodup slots) :
    ∃ sel rest, runMinimumTimeSlots slots = some (sel, rest) ∧
      rest = slots.filter (fun s => decide (s.1 ∉ sel.map Prod.fst)) ∧
      ∀ s ∈ sel, s ∈ slots := by
  obtain ⟨sel, rest, heq, _, _, _, hrest, hmem⟩ := runMinimumTimeSlots_spec slots h
  exact ⟨sel, rest, heq, hrest, hmem⟩

/-- C9 witness: slot B is selected, slot A remains in the consumed index. -/
theorem minCover_consumes_index_witness :
    keysNodup [("A", ["p1"]), ("B", ["p1", "p2"])] ∧
    ∃ sel rest, runMinimumTimeSlots [("A", ["p1"]), ("B", ["p1", "p2"])] = some (sel, rest) ∧
      rest = [("A", ["p1"]), ("B", ["p1", "p2"])].filter
        (fun s => decide (s.1 ∉ sel.map Prod.fst)) ∧
      ∀ s ∈ sel, s ∈ [("A", ["p1"]), ("B", ["p1", "p2"])] :=
  ⟨by decide, minCover_consumes_index _ (by decide)⟩

/-- C10: the greedy loop terminates without ever destructuring an empty
candidate list (the result is `some`), selects at most as many slots as there
are distinct participant keys, and every round has positive new coverage. -/
theorem minCover_termination (slots : List Slot) (h : keysNodup slots) :
    ∃ sel rest, runMinimumTimeSlots slots = some (sel, rest) ∧
      sel.length ≤ (studentsOf slots).card ∧ freshCoverageB ∅ sel = true := by
  obtain ⟨sel, rest, heq, _, hfresh, hlen, _, _⟩ := runMinimumTimeSlots_spec slots h
  exact ⟨sel, rest, heq, hlen, hfresh⟩

/-- C10 witness: three slots over two participants terminate in one round. -/
theorem minCover_termination_witness :
    keysNodup [("A", ["p1", "p2"]), ("B", ["p1"]), ("C", ["p2"])] ∧
    ∃ sel rest,
      runMinimumTimeSlots [("A", ["p1", "p2"]), ("B", ["p1"]), ("C", ["p2"])] =
        some (sel, rest) ∧
      sel.length ≤ (studentsOf [("A", ["p1", "p2"]), ("B", ["p1"]), ("C", ["p2"])]).card ∧
      freshCoverageB ∅ sel = true :=
  ⟨by decide, minCover_termination _ (by decide)⟩

end SchedulingTracks

